import Mathlib

/-!
Verification of the CrossAsset data alignment and transformation pipeline.

The development shallowly embeds the pure computational core of the
repository (src/data_loader.py and the re-denomination / rolling
correlation fragments of src/app.py).  Dates are modelled as integers
(day numbers), observed values as exact rationals.  Since the Python code
computes with IEEE-754 doubles, whose non-finite results matter for the
claims (division by zero yields an infinity, 0/0 yields NaN, and pandas
represents a missing cell as NaN), table cells produced by arithmetic are
modelled by the type FVal below: NaN, a signed infinity, or a finite
value.  Finite arithmetic is exact (rounding is irrelevant to every
claim, which are all stated up to floating-point tolerance).
-/

/-- Model of an IEEE-754 double as used by pandas: NaN (which pandas also
uses for a missing cell), a signed infinity (the Bool is true for the
positive one), or a finite value, modelled exactly as a rational. -/
inductive FVal where
  | nan : FVal
  | inf : Bool → FVal
  | num : ℚ → FVal
deriving DecidableEq

namespace FVal

/-- IEEE-754 addition on the model: NaN is absorbing, opposite infinities
give NaN, an infinity absorbs a finite value. -/
def add : FVal → FVal → FVal
  | nan, _ => nan
  | _, nan => nan
  | inf s, inf t => if s = t then inf s else nan
  | inf s, num _ => inf s
  | num _, inf t => inf t
  | num a, num b => num (a + b)

/-- IEEE-754 negation. -/
def neg : FVal → FVal
  | nan => nan
  | inf s => inf (!s)
  | num a => num (-a)

/-- IEEE-754 subtraction. -/
def sub (x y : FVal) : FVal := add x (neg y)

/-- IEEE-754 multiplication: NaN is absorbing, infinity times zero is
NaN, otherwise signs multiply. -/
def mul : FVal → FVal → FVal
  | nan, _ => nan
  | _, nan => nan
  | inf s, inf t => inf (s = t)
  | inf s, num a => if a = 0 then nan else if 0 < a then inf s else inf (!s)
  | num a, inf t => if a = 0 then nan else if 0 < a then inf t else inf (!t)
  | num a, num b => num (a * b)

/-- IEEE-754 division with a non-negative zero (ℚ has no negative zero;
the Python data only produces the positive zero): NaN is absorbing,
inf/inf is NaN, a finite value divided by zero is NaN when the numerator
is zero and a signed infinity otherwise, a finite value divided by an
infinity is zero. -/
def div : FVal → FVal → FVal
  | nan, _ => nan
  | _, nan => nan
  | inf _, inf _ => nan
  | inf s, num a => if a = 0 then inf s else if 0 < a then inf s else inf (!s)
  | num _, inf _ => num 0
  | num a, num b =>
      if b = 0 then (if a = 0 then nan else if 0 < a then inf true else inf false)
      else num (a / b)

end FVal

/-- A pandas cell holding a float-or-missing value before any arithmetic
has been applied to it: none models NaN. -/
def toF : Option ℚ → FVal
  | none => FVal.nan
  | some a => FVal.num a

/-- A fetched series: a date-indexed single column, as produced by the
fetchers (strictly increasing dates, no missing values). -/
abbrev Series := List (Int × ℚ)

/-- An aligned table: a date axis plus one named column per series, each
column listing a value-or-missing cell per axis date. -/
structure DF where
  dates : List Int
  cols : List (String × List (Option ℚ))
deriving DecidableEq

/-- The most recent observation of a series at or before a date, if any:
the value forward-fill should produce on a unified axis. -/
def mostRecentAtOrBefore (s : Series) (d : Int) : Option ℚ :=
  ((s.filter (fun p => decide (p.1 ≤ d))).map Prod.snd).getLast?

/-- The observation of a series exactly at a date, if any (an outer join
cell before forward-filling). -/
def lookupDate (s : Series) (d : Int) : Option ℚ :=
  (s.find? (fun p => decide (p.1 = d))).map Prod.snd

/-- Forward fill along a list of cells, carrying the last non-missing
value (pandas Series.ffill). -/
def ffillOpt (prev : Option ℚ) : List (Option ℚ) → List (Option ℚ)
  | [] => []
  | x :: xs =>
      match x with
      | some v => some v :: ffillOpt (some v) xs
      | none => prev :: ffillOpt prev xs

/-- Embedding of the app.py denominator preparation:
denom_series.reindex(combined_df.index).ffill() — look the denominator up
at each axis date (dates absent from the denominator index become NaN)
and forward fill the result. -/
def reindexFfillDenom (denom : Series) (dates : List Int) : List (Option ℚ) :=
  ffillOpt none (dates.map (fun d => lookupDate denom d))

/-- Embedding of combined_df.divide(denom_series, axis=0): every column
is divided cell-wise by the denominator cell at the same date, with
IEEE-754 float semantics. -/
def redenominate (cols : List (List (Option ℚ))) (denomCol : List (Option ℚ)) :
    List (List FVal) :=
  cols.map (fun col => List.zipWith (fun x d => (toF x).div (toF d)) col denomCol)

/-- Embedding of the full re-denomination step of src/app.py (reindex,
forward fill, divide). -/
def app_redenominate (df : DF) (denom : Series) : List (List FVal) :=
  redenominate (df.cols.map Prod.snd) (reindexFfillDenom denom df.dates)

/-- First non-missing value of a column, with the fallback 1 the code
uses for an all-missing column
(x.dropna().iloc[0] if not x.dropna().empty else 1). -/
def firstValidOr1 (col : List (Option ℚ)) : ℚ :=
  match col.filterMap id with
  | [] => 1
  | v :: _ => v

/-- Embedding of one column of normalize_data in mode "Index=100":
divide the column by its first non-missing value (fallback 1) and
multiply by 100, with IEEE-754 float semantics. -/
def normalizeIndex100Col (col : List (Option ℚ)) : List FVal :=
  col.map (fun x => ((toF x).div (FVal.num (firstValidOr1 col))).mul (FVal.num 100))

/-- Embedding of normalize_data(df, "Index=100") of src/data_loader.py:
each column is normalized independently. -/
def normalize_data_index100 (df : DF) : List (String × List FVal) :=
  df.cols.map (fun p => (p.1, normalizeIndex100Col p.2))

/-- C2 counterexample input: a one-row table holding the value 5, and a
denominator series whose value at that date is 0. -/
def c2df : DF := { dates := [0], cols := [("X", [some 5])] }

/-- C2 counterexample denominator: the value 0 at date 0. -/
def c2denom : Series := [(0, 0)]

/-- C2: the claim states that dividing by a denominator that is zero at a
date yields a missing value at that date.  At the concrete input above
the denominator is 0 at date 0 and the code produces positive infinity, a
non-missing value, so the claim as stated is false. -/
theorem c2_counterexample :
    reindexFfillDenom c2denom c2df.dates = [some 0]
    ∧ app_redenominate c2df c2denom = [[FVal.inf true]]
    ∧ FVal.inf true ≠ FVal.nan := by
  decide

/-- C2 (amended): element-wise division is total (it never raises); a
cell whose denominator is missing is missing; a cell whose denominator is
zero is missing exactly when the numerator is zero or missing, and is a
signed infinity when the numerator is a nonzero value. -/
theorem c2_divide_semantics (cols : List (List (Option ℚ)))
    (denomCol : List (Option ℚ)) (col : List (Option ℚ)) (j : Nat)
    (x dv : Option ℚ) (hcol : col ∈ cols) (hx : col[j]? = some x)
    (hd : denomCol[j]? = some dv) :
    ∃ rcol ∈ redenominate cols denomCol,
      rcol[j]? = some ((toF x).div (toF dv))
      ∧ (dv = none → (toF x).div (toF dv) = FVal.nan)
      ∧ (dv = some 0 → ((toF x).div (toF dv) = FVal.nan ↔ x = none ∨ x = some 0))
      ∧ (∀ a : ℚ, dv = some 0 → x = some a → a ≠ 0 →
          (toF x).div (toF dv) = FVal.inf (decide (0 < a))) := by
  refine ⟨List.zipWith (fun x d => (toF x).div (toF d)) col denomCol,
    List.mem_map_of_mem _ hcol, ?_, ?_, ?_, ?_⟩
  · simp [List.getElem?_zipWith', hx, hd]
  · rintro rfl
    cases x <;> simp [toF, FVal.div]
  · rintro rfl
    cases x with
    | none => simp [toF, FVal.div]
    | some a =>
        simp only [toF, FVal.div, if_pos rfl]
        constructor
        · intro h
          by_cases ha : a = 0
          · right; rw [ha]
          · exfalso
            rw [if_neg ha] at h
            by_cases hpos : 0 < a <;> simp [hpos] at h
        · rintro (h | h)
          · exact absurd h (by simp)
          · simp only [Option.some.injEq] at h
            simp [h]
  · rintro a rfl rfl ha
    simp only [toF, FVal.div, if_pos rfl, if_neg ha]
    by_cases hpos : 0 < a <;> simp [hpos]

/-- C2 witness: the amended division semantics instantiated at a
two-row, one-column table with a missing and a zero denominator cell. -/
theorem c2_witness :
    ∃ rcol ∈ redenominate [[some 3, some 0]] [none, some 0],
      rcol[0]? = some ((toF (some 3)).div (toF none))
      ∧ (none = (none : Option ℚ) → (toF (some 3)).div (toF none) = FVal.nan)
      ∧ ((none : Option ℚ) = some 0 →
          ((toF (some 3)).div (toF none) = FVal.nan ↔
            (some 3 : Option ℚ) = none ∨ (some 3 : Option ℚ) = some 0))
      ∧ (∀ a : ℚ, (none : Option ℚ) = some 0 → (some 3 : Option ℚ) = some a → a ≠ 0 →
          (toF (some 3)).div (toF none) = FVal.inf (decide (0 < a))) :=
  c2_divide_semantics [[some 3, some 0]] [none, some 0] [some 3, some 0] 0
    (some 3) none (by decide) (by decide) (by decide)

/-- C3 counterexample input column: its first non-missing value is 0. -/
def c3col : List (Option ℚ) := [some 0, some 5]

/-- C3: the claim states that every column with at least one non-missing
value is mapped to a column whose value at the first non-missing date is
100, regardless of what that first value is.  For the concrete column
above the first non-missing value is 0 (at index 0), and the code
computes 0/0, which is NaN, not 100, so the claim as stated is false. -/
theorem c3_counterexample :
    c3col[0]? = some (some 0)
    ∧ (normalizeIndex100Col c3col)[0]? = some FVal.nan
    ∧ FVal.nan ≠ FVal.num 100 := by
  decide

/-- C3 (amended): for every column whose first non-missing value is
nonzero, the normalized column holds exactly 100 at that first
non-missing index. -/
theorem c3_index100_first_value (df : DF) (k j : Nat) (nm : String)
    (col : List (Option ℚ)) (v : ℚ) (hk : df.cols[k]? = some (nm, col))
    (hj : col[j]? = some (some v)) (hpre : ∀ i, i < j → col[i]? = some none)
    (hv : v ≠ 0) :
    ∃ ncol, (normalize_data_index100 df)[k]? = some (nm, ncol)
      ∧ ncol[j]? = some (FVal.num 100) := by
  have hfv : firstValidOr1 col = v := by
    unfold firstValidOr1
    suffices h : col.filterMap id = v :: (col.drop (j + 1)).filterMap id by rw [h]
    clear hk
    induction col generalizing j with
    | nil => simp at hj
    | cons c t ih =>
        cases j with
        | zero =>
            simp only [List.getElem?_cons_zero, Option.some.injEq] at hj
            subst hj
            simp [List.filterMap_cons]
        | succ j =>
            have h0 : c = none := by
              have := hpre 0 (Nat.succ_pos j)
              simpa using this
            subst h0
            simp only [List.getElem?_cons_succ] at hj
            simp only [List.filterMap_cons, List.drop_succ_cons]
            exact ih j hj (fun i hi => by
              have := hpre (i + 1) (Nat.succ_lt_succ hi)
              simpa using this)
  refine ⟨normalizeIndex100Col col, ?_, ?_⟩
  · unfold normalize_data_index100
    rw [List.getElem?_map, hk]
    rfl
  · unfold normalizeIndex100Col
    rw [List.getElem?_map, hj]
    simp only [Option.map_some']
    rw [hfv]
    simp only [toF, FVal.div, if_neg hv, FVal.mul]
    rw [div_self hv]
    norm_num

/-- C3 witness: the amended statement instantiated at a one-column table
whose column starts missing and then holds the value 4. -/
theorem c3_witness :
    ∃ ncol,
      (normalize_data_index100 { dates := [0, 1], cols := [("X", [none, some 4])] })[0]?
        = some ("X", ncol)
      ∧ ncol[1]? = some (FVal.num 100) :=
  c3_index100_first_value { dates := [0, 1], cols := [("X", [none, some 4])] } 0 1
    "X" [none, some 4] 4 (by decide) (by decide)
    (fun i hi => by have h0 : i = 0 := by omega
                    subst h0; decide) (by decide)

/-- Column lookup by name, as df[asset] after the membership test
"asset in df.columns" (first matching column). -/
def colOf (df : DF) (a : String) : Option (List (Option ℚ)) :=
  (df.cols.find? (fun p => decide (p.1 = a))).map Prod.snd

/-- One iteration of the loop body of calculate_portfolio in
src/data_loader.py.  An asset absent from the table is skipped.  For a
present asset, first_val = df[asset].iloc[0] is the FIRST ROW of the
column (missing or not); iloc[0] on a zero-row table raises IndexError,
modelled by none.  The Python guard first_val != 0 is False only when
first_val is the number 0 (NaN != 0 is True), the column is then
normalized by its first-row value, scaled by weight/total and added. -/
def portfolioStep (df : DF) (total : ℚ) (acc : Option (List FVal))
    (aw : String × ℚ) : Option (List FVal) :=
  acc.bind (fun result =>
    match colOf df aw.1 with
    | none => some result
    | some col =>
        match col.head? with
        | none => none
        | some fv =>
            if fv = some 0 then some result
            else
              some (List.zipWith FVal.add result
                ((col.map (fun x => ((toF x).div (toF fv)).mul (FVal.num 100))).map
                  (fun z => z.mul (FVal.num (aw.2 / total))))))

/-- Embedding of calculate_portfolio of src/data_loader.py: an empty
weights map or a zero total weight give the all-zero series on the
table's index, otherwise the weighted sum of first-row-normalized
columns is accumulated asset by asset. -/
def calculate_portfolio (df : DF) (w : List (String × ℚ)) : Option (List FVal) :=
  if w = [] then some (List.replicate df.dates.length (FVal.num 0))
  else if (w.map Prod.snd).sum = 0 then
    some (List.replicate df.dates.length (FVal.num 0))
  else
    w.foldl (portfolioStep df ((w.map Prod.snd).sum))
      (some (List.replicate df.dates.length (FVal.num 0)))

/-- Scaling a float series by a rational constant, cell-wise. -/
def scaleF (c : ℚ) (l : List FVal) : List FVal :=
  l.map (fun z => z.mul (FVal.num c))

theorem fval_mul_one (z : FVal) : z.mul (FVal.num 1) = z := by
  cases z with
  | nan => rfl
  | inf s => norm_num [FVal.mul]
  | num a => simp [FVal.mul]

theorem fval_zero_add (z : FVal) : (FVal.num 0).add z = z := by
  cases z <;> simp [FVal.add]

theorem zipWith_add_replicate_zero (l : List FVal) (n : Nat) (h : n = l.length) :
    List.zipWith FVal.add (List.replicate n (FVal.num 0)) l = l := by
  subst h
  induction l with
  | nil => rfl
  | cons z t ih => simpa [List.replicate_succ, fval_zero_add] using ih

/-- C5 counterexample input: a table whose single column starts with a
missing cell (the asset's history starts after the table's first date). -/
def c5df : DF := { dates := [0, 1], cols := [("X", [none, some 5])] }

/-- C5: the claim states that a 100% single-asset portfolio equals the
column's index100 normalization (rescaled to 100 at its first
non-missing value).  At the concrete table above the column's first ROW
is missing, so the code divides by NaN and the portfolio is all-NaN,
while the index100 normalization is 100 at the first non-missing date:
the claim as stated is false. -/
theorem c5_counterexample :
    calculate_portfolio c5df [("X", 100)] = some [FVal.nan, FVal.nan]
    ∧ normalizeIndex100Col [none, some 5] = [FVal.nan, FVal.num 100]
    ∧ some [FVal.nan, FVal.nan] ≠ some [FVal.nan, FVal.num 100] := by
  refine ⟨?_, ?_, by simp⟩
  · norm_num [calculate_portfolio, portfolioStep, colOf, c5df, toF, FVal.div,
      FVal.mul, FVal.add, List.find?]
    rw [if_neg (by simp : ¬ (none : Option ℚ) = some 0)]
    rfl
  · have h5 : firstValidOr1 [none, some 5] = 5 := rfl
    norm_num [normalizeIndex100Col, h5, toF, FVal.div, FVal.mul]

/-- C5 (amended): whenever the asset's column has a non-missing, nonzero
value in the table's FIRST ROW, the 100%-single-asset portfolio equals
the column's index100 normalization (and in that case the first-row
value is also the first non-missing value). -/
theorem c5_single_asset_portfolio (df : DF) (a : String)
    (col : List (Option ℚ)) (v : ℚ) (hcol : colOf df a = some col)
    (hhead : col.head? = some (some v)) (hv : v ≠ 0)
    (hlen : col.length = df.dates.length) :
    calculate_portfolio df [(a, 100)] = some (normalizeIndex100Col col) := by
  have hne : ([(a, (100 : ℚ))] : List (String × ℚ)) ≠ [] := by simp
  have hsum : (([(a, (100 : ℚ))].map Prod.snd).sum) = 100 := by simp
  unfold calculate_portfolio
  rw [if_neg hne, hsum]
  rw [if_neg (by norm_num : (100 : ℚ) ≠ 0)]
  simp only [List.foldl_cons, List.foldl_nil, portfolioStep, Option.some_bind, hcol, hhead]
  have hfv : (some v : Option ℚ) ≠ some 0 := by
    simp [hv]
  rw [if_neg hfv]
  have h1 : (100 : ℚ) / 100 = 1 := by norm_num
  rw [h1]
  have hmap1 : ∀ l : List FVal, l.map (fun z => z.mul (FVal.num 1)) = l := by
    intro l
    simp [fval_mul_one]
  rw [hmap1]
  rw [zipWith_add_replicate_zero _ _ (by simp [hlen])]
  have hfirst : firstValidOr1 col = v := by
    cases col with
    | nil => simp at hhead
    | cons c t =>
        simp only [List.head?_cons, Option.some.injEq] at hhead
        subst hhead
        simp [firstValidOr1, List.filterMap_cons]
  unfold normalizeIndex100Col
  rw [hfirst]
  rfl

/-- C5 witness: the amended statement instantiated at a table whose
column starts with the value 4: the portfolio is the index100 column. -/
theorem c5_witness :
    calculate_portfolio { dates := [0, 1], cols := [("X", [some 4, some 6])] }
        [("X", 100)]
      = some (normalizeIndex100Col [some 4, some 6]) :=
  c5_single_asset_portfolio { dates := [0, 1], cols := [("X", [some 4, some 6])] }
    "X" [some 4, some 6] 4 (by decide) (by decide) (by decide) (by decide)

/-- C8: whenever the weights sum to zero (the empty map included), the
portfolio is the all-zero series on the table's index, and the total
weight is never used as a divisor (the function returns before
dividing). -/
theorem c8_zero_weight_portfolio (df : DF) (w : List (String × ℚ))
    (hw : (w.map Prod.snd).sum = 0) :
    calculate_portfolio df w = some (List.replicate df.dates.length (FVal.num 0)) := by
  unfold calculate_portfolio
  by_cases hnil : w = []
  · rw [if_pos hnil]
  · rw [if_neg hnil, if_pos hw]

/-- C8 witness: the zero-total-weight behaviour at a concrete table and
a weights map holding the weights 1 and -1. -/
theorem c8_witness :
    calculate_portfolio { dates := [0], cols := [("A", [some 1])] }
        [("A", 1), ("B", -1)]
      = some (List.replicate 1 (FVal.num 0)) :=
  c8_zero_weight_portfolio { dates := [0], cols := [("A", [some 1])] }
    [("A", 1), ("B", -1)] (by norm_num)

theorem fval_mul_num_mul_num (z : FVal) (a b : ℚ) :
    (z.mul (FVal.num a)).mul (FVal.num b) = z.mul (FVal.num (a * b)) := by
  cases z with
  | nan => rfl
  | num x => simp [FVal.mul, mul_assoc]
  | inf s =>
      rcases lt_trichotomy a 0 with ha | ha | ha
      · rcases lt_trichotomy b 0 with hb | hb | hb
        · have hab : 0 < a * b := mul_pos_of_neg_of_neg ha hb
          simp [FVal.mul, ha.ne, hb.ne, hab.ne', not_lt.mpr ha.le,
            not_lt.mpr hb.le, hab]
        · subst hb
          simp [FVal.mul, ha.ne, not_lt.mpr ha.le]
        · have hab : a * b < 0 := mul_neg_of_neg_of_pos ha hb
          simp [FVal.mul, ha.ne, hb.ne', hab.ne, not_lt.mpr ha.le, hb,
            not_lt.mpr hab.le]
      · subst ha
        simp [FVal.mul]
      · rcases lt_trichotomy b 0 with hb | hb | hb
        · have hab : a * b < 0 := mul_neg_of_pos_of_neg ha hb
          simp [FVal.mul, ha.ne', hb.ne, hab.ne, ha, not_lt.mpr hb.le,
            not_lt.mpr hab.le]
        · subst hb
          simp [FVal.mul, ha.ne', ha]
        · have hab : 0 < a * b := mul_pos ha hb
          simp [FVal.mul, ha.ne', hb.ne', hab.ne', ha, hb, hab]

theorem fval_add_nan (z : FVal) : z.add FVal.nan = FVal.nan := by
  cases z <;> rfl

theorem fval_add_mul_num (z₁ z₂ : FVal) (c : ℚ) (hc : c ≠ 0) :
    (z₁.add z₂).mul (FVal.num c) = (z₁.mul (FVal.num c)).add (z₂.mul (FVal.num c)) := by
  rcases hc.lt_or_lt with h | h
  · have h0 : ¬ (0 : ℚ) < c := not_lt.mpr h.le
    cases z₁ with
    | nan => simp [FVal.add, FVal.mul]
    | inf s =>
        cases z₂ with
        | nan => simp [fval_add_nan, FVal.mul]
        | inf t => cases s <;> cases t <;> simp [FVal.add, FVal.mul, h.ne, h0]
        | num b => simp [FVal.add, FVal.mul, h.ne, h0]
    | num a =>
        cases z₂ with
        | nan => simp [fval_add_nan, FVal.mul]
        | inf t => simp [FVal.add, FVal.mul, h.ne, h0]
        | num b => simp [FVal.add, FVal.mul, add_mul]
  · cases z₁ with
    | nan => simp [FVal.add, FVal.mul]
    | inf s =>
        cases z₂ with
        | nan => simp [fval_add_nan, FVal.mul]
        | inf t => cases s <;> cases t <;> simp [FVal.add, FVal.mul, h.ne', h]
        | num b => simp [FVal.add, FVal.mul, h.ne', h]
    | num a =>
        cases z₂ with
        | nan => simp [fval_add_nan, FVal.mul]
        | inf t => simp [FVal.add, FVal.mul, h.ne', h]
        | num b => simp [FVal.add, FVal.mul, add_mul]

/-- A single loop iteration commutes with rescaling the running total:
running the body with total t2 on a result scaled by t/t2 is the same as
running it with total t and scaling afterwards. -/
theorem portfolioStep_scale (df : DF) (t t2 : ℚ) (ht : t ≠ 0) (ht2 : t2 ≠ 0)
    (aw : String × ℚ) (acc : Option (List FVal)) :
    portfolioStep df t2 (acc.map (scaleF (t / t2))) aw
      = (portfolioStep df t acc aw).map (scaleF (t / t2)) := by
  have hc : t / t2 ≠ 0 := div_ne_zero ht ht2
  cases acc with
  | none => rfl
  | some res =>
      simp only [Option.map_some', portfolioStep, Option.some_bind]
      cases hcol : colOf df aw.1 with
      | none => rfl
      | some col =>
          cases hh : col.head? with
          | none => simp [hh]
          | some fv =>
              simp only [hh]
              by_cases hfv : fv = some 0
              · simp [hfv]
              · simp only [if_neg hfv, Option.map_some']
                congr 1
                unfold scaleF
                simp only [List.map_zipWith, List.zipWith_map_right,
                  List.zipWith_map_left]
                have hrw : ∀ z₁ z₂ : FVal,
                    (z₁.mul (FVal.num (t / t2))).add
                        ((z₂.mul (FVal.num 100)).mul (FVal.num (aw.2 / t2)))
                      = ((z₁.add ((z₂.mul (FVal.num 100)).mul
                          (FVal.num (aw.2 / t)))).mul (FVal.num (t / t2))) := by
                  intro z₁ z₂
                  rw [fval_add_mul_num _ _ _ hc, fval_mul_num_mul_num,
                    fval_mul_num_mul_num, fval_mul_num_mul_num]
                  have harg : aw.2 / t * (t / t2) = aw.2 / t2 := by
                    field_simp
                  rw [harg]
                have hfun : (fun (a : FVal) (b : Option ℚ) =>
                    (a.mul (FVal.num (t / t2))).add
                      ((((toF b).div (toF fv)).mul (FVal.num 100)).mul
                        (FVal.num (aw.2 / t2))))
                    = (fun (x : FVal) (y : Option ℚ) =>
                      ((x.add ((((toF y).div (toF fv)).mul (FVal.num 100)).mul
                        (FVal.num (aw.2 / t)))).mul (FVal.num (t / t2)))) :=
                  funext (fun a => funext (fun b => hrw a ((toF b).div (toF fv))))
                rw [hfun]

/-- The whole accumulation loop commutes with rescaling the total
weight: the per-asset scale factors weight/total are uniformly rescaled. -/
theorem portfolio_foldl_scale (df : DF) (t t2 : ℚ) (ht : t ≠ 0) (ht2 : t2 ≠ 0)
    (w : List (String × ℚ)) :
    ∀ acc : Option (List FVal),
      w.foldl (portfolioStep df t2) (acc.map (scaleF (t / t2)))
        = (w.foldl (portfolioStep df t) acc).map (scaleF (t / t2)) := by
  induction w with
  | nil => intro acc; simp
  | cons aw tl ih =>
      intro acc
      rw [List.foldl_cons, List.foldl_cons,
        portfolioStep_scale df t t2 ht ht2 aw acc, ih]

/-- C10: calculate_portfolio divides every present asset's weight by the
sum of ALL weights in the map, including weights of assets absent from
the table (which contribute nothing to the accumulated sum), so
mentioning an absent asset with extra weight x uniformly rescales the
portfolio by total/(total+x) instead of renormalizing over the present
columns. -/
theorem c10_absent_asset_scales (df : DF) (w : List (String × ℚ))
    (nm : String) (x : ℚ) (habs : colOf df nm = none)
    (ht : (w.map Prod.snd).sum ≠ 0)
    (ht2 : (w.map Prod.snd).sum + x ≠ 0) :
    calculate_portfolio df (w ++ [(nm, x)])
      = (calculate_portfolio df w).map
          (scaleF ((w.map Prod.snd).sum / ((w.map Prod.snd).sum + x))) := by
  have hwne : w ≠ [] := by
    rintro rfl
    simp at ht
  have happ : w ++ [(nm, x)] ≠ [] := by simp
  have hsum : ((w ++ [(nm, x)]).map Prod.snd).sum = (w.map Prod.snd).sum + x := by
    simp
  unfold calculate_portfolio
  rw [if_neg happ, if_neg hwne, hsum, if_neg ht2, if_neg ht]
  rw [List.foldl_append]
  have hlast : ∀ acc : Option (List FVal),
      List.foldl (portfolioStep df ((w.map Prod.snd).sum + x)) acc [(nm, x)] = acc := by
    intro acc
    simp only [List.foldl_cons, List.foldl_nil, portfolioStep, habs]
    cases acc <;> rfl
  rw [hlast]
  have hmain := portfolio_foldl_scale df ((w.map Prod.snd).sum)
    ((w.map Prod.snd).sum + x) ht ht2 w
    (some (List.replicate df.dates.length (FVal.num 0)))
  rw [← hmain]
  congr 1
  simp [scaleF, FVal.mul]

/-- C10 witness: adding the absent asset Y with weight 50 to a map that
gives the present asset X weight 50 rescales the portfolio by 1/2. -/
theorem c10_witness :
    calculate_portfolio { dates := [0, 1], cols := [("X", [some 10, some 20])] }
        ([("X", 50)] ++ [("Y", 50)])
      = (calculate_portfolio { dates := [0, 1], cols := [("X", [some 10, some 20])] }
          [("X", 50)]).map
          (scaleF (((([("X", (50 : ℚ))]).map Prod.snd).sum)
            / ((([("X", (50 : ℚ))]).map Prod.snd).sum + 50))) :=
  c10_absent_asset_scales { dates := [0, 1], cols := [("X", [some 10, some 20])] }
    [("X", 50)] "Y" 50 (by decide) (by norm_num) (by norm_num)

/-- Mean of a list of rationals (sum over length; only used on lists of
length at least 2). -/
def meanQ (l : List ℚ) : ℚ := l.sum / l.length

/-- Centered sum of squares of the regressor of a paired sample, the
denominator of the ordinary-least-squares slope. -/
def regSxx (ps : List (ℚ × ℚ)) : ℚ :=
  (ps.map (fun p => (p.1 - meanQ (ps.map Prod.fst)) ^ 2)).sum

/-- Embedding of Series.pct_change(): the first cell is always NaN, and
cell i is x_i / x_(i-1) - 1 with IEEE-754 float semantics (the combined
table is already forward filled upstream, so the deprecated pad
pre-filling of older pandas makes no difference there). -/
def pctChangeF : List FVal → List FVal
  | [] => []
  | x :: t =>
      FVal.nan ::
        List.zipWith (fun prev cur => (cur.div prev).sub (FVal.num 1)) (x :: t) t

/-- The window of at most w observations ending at index i inclusive, as
used by pandas rolling(window=w) at output position i. -/
def windowTo (w i : Nat) (xs : List FVal) : List FVal :=
  (xs.take (i + 1)).drop (i + 1 - w)

/-- The pairs in the window at position i in which both series are
non-NaN: the observations pandas rolling corr counts toward its
min_periods requirement (min_periods defaults to the window size). -/
def validPairsW (xs ys : List FVal) (w i : Nat) : List (FVal × FVal) :=
  ((windowTo w i xs).zip (windowTo w i ys)).filter
    (fun p => decide (p.1 ≠ FVal.nan) && decide (p.2 ≠ FVal.nan))

/-- True when the float is a finite number. -/
def isFiniteF : FVal → Bool
  | FVal.num _ => true
  | _ => false

/-- The window pairs as exact rationals (only applied when every valid
pair is finite). -/
def finitePairsQ (ps : List (FVal × FVal)) : List (ℚ × ℚ) :=
  ps.filterMap (fun p =>
    match p with
    | (FVal.num a, FVal.num b) => some (a, b)
    | _ => none)

/-- Centered sum of squares of a sample. -/
def cssQ (l : List ℚ) : ℚ := (l.map (fun a => (a - meanQ l) ^ 2)).sum

/-- One output cell of the rolling Pearson correlation
x.rolling(window=w).corr(y).  The cell is NaN when fewer than w valid
pairs lie in the window, when an infinite value poisons the window sums,
or when either windowed sample has zero variance (0/0).  The defined
value is cov / sqrt(varx * vary), which is irrational in general; since
the claims concern only which cells are missing, a defined cell is
represented by the pair (cov, varx * vary) from which the float value is
cov / sqrt of the second component. -/
def rollingCorrCell (xs ys : List FVal) (w i : Nat) : Option (ℚ × ℚ) :=
  let ps := validPairsW xs ys w i
  if ps.length < w then none
  else if ps.any (fun p => !(isFiniteF p.1) || !(isFiniteF p.2)) then none
  else
    let qs := finitePairsQ ps
    if cssQ (qs.map Prod.fst) = 0 ∨ cssQ (qs.map Prod.snd) = 0 then none
    else
      some ((qs.map (fun q => (q.1 - meanQ (qs.map Prod.fst))
          * (q.2 - meanQ (qs.map Prod.snd)))).sum,
        cssQ (qs.map Prod.fst) * cssQ (qs.map Prod.snd))

/-- Rolling correlation of two equally indexed series: one output cell
per index position. -/
def rolling_corr (xs ys : List FVal) (w : Nat) : List (Option (ℚ × ℚ)) :=
  (List.range (min xs.length ys.length)).map (fun i => rollingCorrCell xs ys w i)

/-- Embedding of the src/app.py rolling correlation:
combined_df[a].pct_change().rolling(window=w).corr(combined_df[b].pct_change()). -/
def app_rolling_correlation (xs ys : List (Option ℚ)) (w : Nat) :
    List (Option (ℚ × ℚ)) :=
  rolling_corr (pctChangeF (xs.map toF)) (pctChangeF (ys.map toF)) w

/-- The missing-value pattern claim C6 asserts for the rolling
correlation: the output is missing at exactly the first w-1 positions,
and defined from position w-1 on wherever the window holds at least w
valid (min_periods-countable) pairs. -/
def c6ClaimHolds (xs ys : List (Option ℚ)) (w : Nat) : Prop :=
  (∀ i, i < w - 1 → (app_rolling_correlation xs ys w).getD i none = none)
  ∧ (∀ i, i < (app_rolling_correlation xs ys w).length → w - 1 ≤ i →
      w ≤ (validPairsW (pctChangeF (xs.map toF)) (pctChangeF (ys.map toF)) w i).length →
      (app_rolling_correlation xs ys w).getD i none ≠ none)

/-- C6 counterexample series: a geometric price series, whose percent
changes are all equal. -/
def c6s : List (Option ℚ) := [some 1, some 2, some 4]

/-- C6: the claim states the rolling correlation output is missing for
exactly the first w-1 points and defined from the w-th point on wherever
the window holds enough (at least w) valid observations.  With w = 2 and
the geometric series above, position 2 has 2 valid percent-change pairs
in its window, yet the windowed samples have zero variance, so the code
produces NaN (0/0) there: the claim as stated is false. -/
theorem decide_num_eq_nan (a : ℚ) : decide (FVal.num a = FVal.nan) = false :=
  decide_eq_false (fun h => FVal.noConfusion h)

theorem c6_counterexample : ¬ c6ClaimHolds c6s c6s 2 := by
  intro h
  refine absurd ?_ (h.2 2 (by decide) (by norm_num) (by decide))
  show (app_rolling_correlation c6s c6s 2).getD 2 none = none
  norm_num [c6s, app_rolling_correlation, rolling_corr, rollingCorrCell,
    validPairsW, windowTo, pctChangeF, toF, FVal.div, FVal.sub, FVal.add,
    FVal.neg, isFiniteF, finitePairsQ, cssQ, meanQ, List.getD,
    decide_num_eq_nan, List.filterMap_cons, Function.comp]

theorem pctChangeF_length (l : List FVal) : (pctChangeF l).length = l.length := by
  cases l with
  | nil => rfl
  | cons a t => simp [pctChangeF]

/-- C6 (amended): the rolling correlation of percent changes is missing
at ALL of the first w positions (w-1 from the window-size requirement
and one more because the first percent change is always missing), and at
a later position it is missing exactly when the window has fewer than w
valid pairs, or an infinite percent change poisons the window, or either
windowed sample has zero variance. -/
theorem c6_rolling_corr_missing (xs ys : List (Option ℚ)) (w : Nat)
    (_hw : 1 ≤ w) (_hlen : xs.length = ys.length) :
    (∀ i, i < w → (app_rolling_correlation xs ys w).getD i none = none)
    ∧ (∀ i, i < (app_rolling_correlation xs ys w).length →
        ((app_rolling_correlation xs ys w).getD i none = none ↔
          (validPairsW (pctChangeF (xs.map toF)) (pctChangeF (ys.map toF)) w i).length < w
          ∨ (validPairsW (pctChangeF (xs.map toF)) (pctChangeF (ys.map toF)) w i).any
              (fun p => !(isFiniteF p.1) || !(isFiniteF p.2)) = true
          ∨ cssQ ((finitePairsQ (validPairsW (pctChangeF (xs.map toF))
              (pctChangeF (ys.map toF)) w i)).map Prod.fst) = 0
          ∨ cssQ ((finitePairsQ (validPairsW (pctChangeF (xs.map toF))
              (pctChangeF (ys.map toF)) w i)).map Prod.snd) = 0)) := by
  have hout : ∀ i, i < (app_rolling_correlation xs ys w).length →
      (app_rolling_correlation xs ys w).getD i none
        = rollingCorrCell (pctChangeF (xs.map toF)) (pctChangeF (ys.map toF)) w i := by
    intro i hi
    unfold app_rolling_correlation rolling_corr
    unfold app_rolling_correlation rolling_corr at hi
    rw [List.length_map, List.length_range] at hi
    rw [List.getD_eq_getElem?_getD, List.getElem?_map, List.getElem?_range hi]
    rfl
  constructor
  · intro i hiw
    by_cases hilen : i < (app_rolling_correlation xs ys w).length
    · rw [hout i hilen]
      have hcnt : (validPairsW (pctChangeF (xs.map toF))
          (pctChangeF (ys.map toF)) w i).length < w := by
        cases hxs : xs with
        | nil =>
            rw [hxs] at hilen
            simp [app_rolling_correlation, rolling_corr, pctChangeF] at hilen
        | cons x0 xt =>
            cases hys : ys with
            | nil =>
                rw [hys] at hilen
                simp [app_rolling_correlation, rolling_corr, pctChangeF] at hilen
            | cons y0 yt =>
                have hi1w : i + 1 - w = 0 := by omega
                unfold validPairsW windowTo
                rw [hi1w, List.drop_zero, List.drop_zero]
                simp only [List.map_cons, pctChangeF, List.take_succ_cons,
                  List.zip_cons_cons, List.filter_cons]
                norm_num
                refine lt_of_le_of_lt (le_trans (List.length_filter_le _ _) ?_) hiw
                rw [List.length_zip]
                exact le_trans (min_le_left _ _) (List.length_take_le _ _)
      simp only [rollingCorrCell]
      rw [if_pos hcnt]
    · rw [List.getD_eq_default _ _ (not_lt.mp hilen)]
  · intro i hi
    rw [hout i hi]
    simp only [rollingCorrCell]
    split_ifs with h1 h2 h3
    · simp [h1]
    · simp [h2]
    · rcases h3 with h3 | h3 <;> simp [h3]
    · rcases not_or.mp h3 with ⟨h4, h5⟩
      simp [h1, h2, h4, h5]

/-- C6 witness: the amended missing-value pattern instantiated at the
geometric series with window 2: the first two positions are missing, and
later positions are missing exactly under the degeneracy conditions. -/
theorem c6_witness :
    (∀ i, i < 2 → (app_rolling_correlation c6s c6s 2).getD i none = none)
    ∧ (∀ i, i < (app_rolling_correlation c6s c6s 2).length →
        ((app_rolling_correlation c6s c6s 2).getD i none = none ↔
          (validPairsW (pctChangeF (c6s.map toF)) (pctChangeF (c6s.map toF)) 2 i).length < 2
          ∨ (validPairsW (pctChangeF (c6s.map toF)) (pctChangeF (c6s.map toF)) 2 i).any
              (fun p => !(isFiniteF p.1) || !(isFiniteF p.2)) = true
          ∨ cssQ ((finitePairsQ (validPairsW (pctChangeF (c6s.map toF))
              (pctChangeF (c6s.map toF)) 2 i)).map Prod.fst) = 0
          ∨ cssQ ((finitePairsQ (validPairsW (pctChangeF (c6s.map toF))
              (pctChangeF (c6s.map toF)) 2 i)).map Prod.snd) = 0)) :=
  c6_rolling_corr_missing c6s c6s 2 (by norm_num) rfl

/-- Embedding of pandas DataFrame.shift(n) on one column: values move n
ROW POSITIONS down the axis (up for negative n), vacated cells become
missing, and the column keeps its length. -/
def shiftList (n : Int) (xs : List (Option ℚ)) : List (Option ℚ) :=
  if 0 ≤ n then (List.replicate n.toNat none ++ xs).take xs.length
  else ((xs.drop (-n).toNat) ++ List.replicate (-n).toNat none).take xs.length

/-- True when some column has a non-missing cell in row j: the rows
dropna(how='all') keeps. -/
def rowKeep (cols : List (String × List (Option ℚ))) (j : Nat) : Bool :=
  cols.any (fun p => (p.2.getD j none).isSome)

/-- Keep the entries of a list selected by a Boolean mask. -/
def filterByMask {α : Type} : List Bool → List α → List α
  | [], _ => []
  | _ :: _, [] => []
  | true :: bs, x :: xs => x :: filterByMask bs xs
  | false :: bs, _ :: xs => filterByMask bs xs

/-- Embedding of DataFrame.dropna(how='all'): drop every row in which
every column is missing, from the axis and from every column. -/
def dropAllMissingRows (df : DF) : DF :=
  let mask := (List.range df.dates.length).map (rowKeep df.cols)
  { dates := filterByMask mask df.dates,
    cols := df.cols.map (fun p => (p.1, filterByMask mask p.2)) }

/-- The table after the shift of apply_lead_lag, before the row drop:
shifted_df[other_cols] = shifted_df[other_cols].shift(shift_months * 30),
with every column named focus_col left untouched. -/
def leadLagShifted (df : DF) (focus : String) (m : Int) : DF :=
  { dates := df.dates,
    cols := df.cols.map (fun p =>
      if p.1 = focus then p else (p.1, shiftList (m * 30) p.2)) }

/-- Embedding of apply_lead_lag of src/data_loader.py: the identity for
shift_months = 0, otherwise shift every non-focus column by
shift_months * 30 row positions and drop all-missing rows. -/
def apply_lead_lag (df : DF) (focus : String) (m : Int) : DF :=
  if m = 0 then df else dropAllMissingRows (leadLagShifted df focus m)

/-- Value of a column at an absolute date of the axis, if the date is on
the axis and the cell is present. -/
def valueAtDate (dates : List Int) (c : List (Option ℚ)) (d : Int) : Option ℚ :=
  ((dates.zip c).find? (fun q => decide (q.1 = d))).bind Prod.snd

/-- Modelled from the spec: the claim reads the lead/lag shift as moving
every non-anchor value by shift_months × 30 CALENDAR DAYS along the date
axis (a value observed at date d is shown at date d + 30m, dates missing
from the axis dropping out), anchor untouched, all-missing rows dropped,
zero shift the identity. -/
def applyLeadLagCalendarSpec (df : DF) (focus : String) (m : Int) : DF :=
  if m = 0 then df
  else
    dropAllMissingRows
      { dates := df.dates,
        cols := df.cols.map (fun p =>
          if p.1 = focus then p
          else (p.1, df.dates.map (fun d => valueAtDate df.dates p.2 (d - 30 * m)))) }

/-- C4 counterexample table: two dates 30 calendar days but only one row
position apart. -/
def c4df : DF :=
  { dates := [0, 30], cols := [("A", [some 1, some 1]), ("B", [some 5, some 7])] }

/-- C4: the claim states apply_lead_lag shifts non-anchor columns by
m × 30 calendar days.  The code shifts by m × 30 ROW POSITIONS
(DataFrame.shift counts rows, not days).  On the table above, whose two
rows are 30 days but one position apart, shifting B by one month empties
the column under the code, while the calendar-day reading carries the
value 5 from date 0 to date 30: the claim as stated is false. -/
theorem c4_counterexample :
    apply_lead_lag c4df "A" 1 ≠ applyLeadLagCalendarSpec c4df "A" 1
    ∧ apply_lead_lag c4df "A" 1
        = { dates := [0, 30], cols := [("A", [some 1, some 1]), ("B", [none, none])] }
    ∧ applyLeadLagCalendarSpec c4df "A" 1
        = { dates := [0, 30], cols := [("A", [some 1, some 1]), ("B", [none, some 5])] } := by
  refine ⟨?_, by decide, by decide⟩
  decide

theorem mem_of_getElem_some {α : Type} {l : List α} {i : Nat} {a : α}
    (h : l[i]? = some a) : a ∈ l := by
  have hi : i < l.length := by
    by_contra hc
    rw [List.getElem?_eq_none (not_lt.mp hc)] at h
    exact Option.noConfusion h
  rw [List.getElem?_eq_getElem hi] at h
  rw [← Option.some_inj.mp h]
  exact List.getElem_mem hi

/-- Cell-level characterization of the row shift: the cell at position j
comes from position j - n of the original column when that position
exists, and is missing otherwise. -/
theorem shiftList_cell (n : Int) (xs : List (Option ℚ)) (j : Nat)
    (hj : j < xs.length) :
    (shiftList n xs)[j]? =
      if 0 ≤ (j : Int) - n ∧ (j : Int) - n < (xs.length : Int)
        then xs[((j : Int) - n).toNat]? else some none := by
  unfold shiftList
  by_cases hn : 0 ≤ n
  · rw [if_pos hn, List.getElem?_take_of_lt hj]
    by_cases hjn : (j : Int) < n
    · have hrep : j < (List.replicate n.toNat (none : Option ℚ)).length := by
        rw [List.length_replicate]
        omega
      rw [List.getElem?_append_left hrep, List.getElem?_replicate,
        if_pos (by rw [List.length_replicate] at hrep; exact hrep),
        if_neg (by omega)]
    · have hlen : (List.replicate n.toNat (none : Option ℚ)).length ≤ j := by
        rw [List.length_replicate]
        omega
      rw [List.getElem?_append_right hlen, List.length_replicate,
        if_pos (by constructor <;> omega)]
      congr 1
      omega
  · rw [if_neg hn, List.getElem?_take_of_lt hj]
    by_cases hjk : j < xs.length - (-n).toNat
    · have h1 : j < (xs.drop (-n).toNat).length := by
        rw [List.length_drop]
        omega
      rw [List.getElem?_append_left h1, List.getElem?_drop,
        if_pos (by constructor <;> omega)]
      congr 1
      omega
    · have h1 : (xs.drop (-n).toNat).length ≤ j := by
        rw [List.length_drop]
        omega
      rw [List.getElem?_append_right h1, List.length_drop,
        List.getElem?_replicate, if_pos (by omega), if_neg (by omega)]

/-- The non-missing (date, value) pairs of a column on an axis. -/
def pairsOf (dates : List Int) (c : List (Option ℚ)) : List (Int × ℚ) :=
  (dates.zip c).filterMap (fun q => q.2.map (fun v => (q.1, v)))

/-- Dropping rows that are missing in a column (among others) does not
change the column's (date, value) pairing. -/
theorem pairsOf_filterByMask :
    ∀ (bs : List Bool) (ds : List Int) (cs : List (Option ℚ)),
      bs.length = ds.length → ds.length = cs.length →
      (∀ j : Nat, bs[j]? = some false → cs[j]? = some none) →
      pairsOf (filterByMask bs ds) (filterByMask bs cs) = pairsOf ds cs := by
  intro bs
  induction bs with
  | nil =>
      intro ds cs h1 h2 _
      cases ds with
      | nil =>
          cases cs with
          | nil => rfl
          | cons _ _ => simp at h2
      | cons _ _ => simp at h1
  | cons b bt ih =>
      intro ds cs h1 h2 hnone
      cases ds with
      | nil => simp at h1
      | cons d dt =>
          cases cs with
          | nil => simp at h2
          | cons x ct =>
              have ht : pairsOf (filterByMask bt dt) (filterByMask bt ct)
                  = pairsOf dt ct :=
                ih dt ct (by simpa using h1) (by simpa using h2)
                  (fun j hj => by
                    have := hnone (j + 1) (by simpa using hj)
                    simpa using this)
              cases b with
              | true =>
                  simp only [filterByMask]
                  unfold pairsOf at ht ⊢
                  simp only [List.zip_cons_cons, List.filterMap_cons]
                  cases x with
                  | none => simpa using ht
                  | some v =>
                      simp only [Option.map_some']
                      rw [ht]
              | false =>
                  have hx : x = none := by
                    have := hnone 0 (by simp)
                    simpa using this
                  subst hx
                  simp only [filterByMask]
                  unfold pairsOf at ht ⊢
                  simp only [List.zip_cons_cons, List.filterMap_cons]
                  simpa using ht

/-- Mask filtering by a positional predicate is selection by position. -/
theorem filterByMask_range {α : Type} :
    ∀ (xs : List α) (keep : Nat → Bool),
      filterByMask ((List.range xs.length).map keep) xs
        = (List.range xs.length).filterMap
            (fun j => if keep j then xs[j]? else none) := by
  intro xs
  induction xs with
  | nil => intro keep; rfl
  | cons x t ih =>
      intro keep
      rw [List.length_cons, List.range_succ_eq_map]
      simp only [List.map_cons, List.map_map, List.filterMap_cons]
      have hfun : (fun j => if (keep ∘ Nat.succ) j = true then t[j]? else none)
          = ((fun j => if keep j = true then (x :: t)[j]? else none) ∘ Nat.succ) := by
        funext j
        simp [Function.comp]
      cases hk : keep 0 with
      | true =>
          simp only [hk, if_pos, List.getElem?_cons_zero, filterByMask]
          rw [ih (keep ∘ Nat.succ), List.filterMap_map, hfun]
      | false =>
          simp only [hk, filterByMask]
          rw [ih (keep ∘ Nat.succ), List.filterMap_map, hfun]
          simp

/-- C4 (amended): apply_lead_lag with shift 0 is the identity; for a
nonzero shift it shifts every non-anchor column by m * 30 ROW POSITIONS
along the axis (pandas shift counts rows, not calendar days), leaves
every anchor-named column untouched by the shift, keeps exactly the rows
in which some column is non-missing, and preserves the anchor's
(date, value) pairing of non-missing cells for every m. -/
theorem c4_lead_lag_amended (df : DF) (focus : String) (m : Int)
    (hcols : ∀ p ∈ df.cols, p.2.length = df.dates.length) :
    apply_lead_lag df focus 0 = df
    ∧ (m ≠ 0 → apply_lead_lag df focus m
        = dropAllMissingRows (leadLagShifted df focus m))
    ∧ (∀ (k : Nat) (p : String × List (Option ℚ)), df.cols[k]? = some p → p.1 = focus →
        (leadLagShifted df focus m).cols[k]? = some p)
    ∧ (∀ (k : Nat) (p : String × List (Option ℚ)), df.cols[k]? = some p → p.1 ≠ focus →
        (leadLagShifted df focus m).cols[k]? = some (p.1, shiftList (m * 30) p.2)
        ∧ ∀ j, j < p.2.length →
            (shiftList (m * 30) p.2)[j]?
              = if 0 ≤ (j : Int) - m * 30 ∧ (j : Int) - m * 30 < (p.2.length : Int)
                  then p.2[((j : Int) - m * 30).toNat]? else some none)
    ∧ (m ≠ 0 → (apply_lead_lag df focus m).dates
        = (List.range df.dates.length).filterMap (fun j =>
            if rowKeep (leadLagShifted df focus m).cols j
              then df.dates[j]? else none))
    ∧ (∀ (k : Nat) (p : String × List (Option ℚ)), df.cols[k]? = some p → p.1 = focus →
        ∃ q, (apply_lead_lag df focus m).cols[k]? = some q ∧ q.1 = focus
          ∧ pairsOf (apply_lead_lag df focus m).dates q.2
              = pairsOf df.dates p.2) := by
  have hanchor : ∀ (k : Nat) (p : String × List (Option ℚ)), df.cols[k]? = some p → p.1 = focus →
      (leadLagShifted df focus m).cols[k]? = some p := by
    intro k p hk hfoc
    simp [leadLagShifted, List.getElem?_map, hk, hfoc]
  refine ⟨by simp [apply_lead_lag],
    fun hm => by rw [apply_lead_lag, if_neg hm], hanchor, ?_, ?_, ?_⟩
  · intro k p hk hfoc
    constructor
    · simp [leadLagShifted, List.getElem?_map, hk, hfoc]
    · intro j hj
      exact shiftList_cell (m * 30) p.2 j hj
  · intro hm
    rw [apply_lead_lag, if_neg hm]
    exact filterByMask_range df.dates _
  · intro k p hk hfoc
    by_cases hm : m = 0
    · subst hm
      exact ⟨p, by simpa [apply_lead_lag] using hk, hfoc, rfl⟩
    · have hsh := hanchor k p hk hfoc
      have hplen : p.2.length = df.dates.length := hcols p (mem_of_getElem_some hk)
      rw [apply_lead_lag, if_neg hm]
      refine ⟨(p.1, filterByMask ((List.range df.dates.length).map
          (rowKeep (leadLagShifted df focus m).cols)) p.2), ?_, hfoc, ?_⟩
      · simp only [dropAllMissingRows, List.getElem?_map, hsh, Option.map_some']
        rfl
      · show pairsOf (filterByMask _ df.dates) (filterByMask _ p.2) = _
        apply pairsOf_filterByMask
        · simp [leadLagShifted]
        · exact hplen.symm
        · intro j hj
          replace hj : ((List.range df.dates.length).map
              (rowKeep (leadLagShifted df focus m).cols))[j]? = some false := hj
          rw [List.getElem?_map] at hj
          have hjlt : j < df.dates.length := by
            by_contra hc
            rw [List.getElem?_eq_none (by simpa using not_lt.mp hc)] at hj
            exact Option.noConfusion hj
          rw [List.getElem?_range hjlt] at hj
          simp only [Option.map_some', Option.some.injEq] at hj
          have hmem : p ∈ (leadLagShifted df focus m).cols := mem_of_getElem_some hsh
          unfold rowKeep at hj
          have hcell : (p.2.getD j none).isSome = false := by
            have hall := List.any_eq_false.mp hj
            have h2 := hall p hmem
            simpa using h2
          have hjp : j < p.2.length := by omega
          rw [List.getD_eq_getElem?_getD, List.getElem?_eq_getElem hjp] at hcell
          rw [List.getElem?_eq_getElem hjp]
          cases hcl : p.2[j] with
          | none => rfl
          | some v =>
              rw [hcl] at hcell
              simp at hcell

/-- C4 witness: the amended row-shift description instantiated at the
counterexample table with anchor A and a one-month shift. -/
theorem c4_witness :
    apply_lead_lag c4df "A" 0 = c4df
    ∧ ((1 : Int) ≠ 0 → apply_lead_lag c4df "A" 1
        = dropAllMissingRows (leadLagShifted c4df "A" 1))
    ∧ (∀ (k : Nat) (p : String × List (Option ℚ)), c4df.cols[k]? = some p → p.1 = "A" →
        (leadLagShifted c4df "A" 1).cols[k]? = some p)
    ∧ (∀ (k : Nat) (p : String × List (Option ℚ)), c4df.cols[k]? = some p → p.1 ≠ "A" →
        (leadLagShifted c4df "A" 1).cols[k]? = some (p.1, shiftList (1 * 30) p.2)
        ∧ ∀ j, j < p.2.length →
            (shiftList (1 * 30) p.2)[j]?
              = if 0 ≤ (j : Int) - 1 * 30 ∧ (j : Int) - 1 * 30 < (p.2.length : Int)
                  then p.2[((j : Int) - 1 * 30).toNat]? else some none)
    ∧ ((1 : Int) ≠ 0 → (apply_lead_lag c4df "A" 1).dates
        = (List.range c4df.dates.length).filterMap (fun j =>
            if rowKeep (leadLagShifted c4df "A" 1).cols j
              then c4df.dates[j]? else none))
    ∧ (∀ (k : Nat) (p : String × List (Option ℚ)), c4df.cols[k]? = some p → p.1 = "A" →
        ∃ q, (apply_lead_lag c4df "A" 1).cols[k]? = some q ∧ q.1 = "A"
          ∧ pairsOf (apply_lead_lag c4df "A" 1).dates q.2
              = pairsOf c4df.dates p.2) :=
  c4_lead_lag_amended c4df "A" 1 (by decide)

/-- Sorted, deduplicated union of all series' observation dates: the
index produced by pd.concat(all_dfs, axis=1) with its outer join. -/
def unionDates (ss : List Series) : List Int :=
  ((ss.flatMap (fun s => s.map Prod.fst)).insertionSort (· ≤ ·)).dedup

/-- The outer-join table before forward filling: each series contributes
its observation exactly at each axis date, or missing. -/
def concatTable (ss : List Series) : List (Int × List (Option ℚ)) :=
  (unionDates ss).map (fun d => (d, ss.map (fun s => lookupDate s d)))

/-- Forward-fill one row from the carried last-seen value per column. -/
def ffillRow (prev cur : List (Option ℚ)) : List (Option ℚ) :=
  List.zipWith (fun pv cv => cv.orElse (fun _ => pv)) prev cur

/-- Forward-fill a row table top to bottom (DataFrame.ffill): every
missing cell takes the last value seen above it in its own column. -/
def ffillRows (prev : List (Option ℚ)) :
    List (Int × List (Option ℚ)) → List (Int × List (Option ℚ))
  | [] => []
  | (d, r) :: rest =>
      (d, ffillRow prev r) :: ffillRows (ffillRow prev r) rest

/-- Embedding of the alignment core of get_combined_data of
src/data_loader.py: concatenate the fetched series on the sorted union
of their date axes (outer join), forward fill each column, and drop the
rows in which every column is still missing. -/
def get_combined_data (ss : List Series) : List (Int × List (Option ℚ)) :=
  if ss.isEmpty then []
  else
    (ffillRows (List.replicate ss.length none) (concatTable ss)).filter
      (fun r => r.2.any Option.isSome)

/-- Last observation of a series over the dates not in L: the value the
forward-fill carry holds when L is the part of the axis still ahead. -/
def ffillNotIn (s : Series) (L : List Int) : Option ℚ :=
  ((s.filter (fun p => decide (p.1 ∉ L))).map Prod.snd).getLast?

/-- The most recent observation strictly before a date, if any. -/
def mostRecentBefore (s : Series) (d : Int) : Option ℚ :=
  ((s.filter (fun p => decide (p.1 < d))).map Prod.snd).getLast?

theorem zipWith_map_same {α β γ δ : Type} (f : β → γ → δ) (g : α → β)
    (h : α → γ) (l : List α) :
    List.zipWith f (l.map g) (l.map h) = l.map (fun a => f (g a) (h a)) := by
  induction l with
  | nil => rfl
  | cons a t ih => simp only [List.map_cons, List.zipWith_cons_cons, ih]

theorem getLast?_cons_or {α : Type} (a : α) (l : List α) :
    (a :: l).getLast? = (l.getLast?).orElse (fun _ => some a) := by
  cases l with
  | nil => rfl
  | cons b t =>
      rw [List.getLast?_cons_cons]
      cases h : (b :: t).getLast? with
      | none =>
          have hne := List.getLast?_isSome.mpr (List.cons_ne_nil b t)
          rw [h] at hne
          exact absurd hne (by simp)
      | some v => rfl

theorem orElse_assoc {α : Type} (x y z : Option α) :
    (x.orElse (fun _ => y)).orElse (fun _ => z)
      = x.orElse (fun _ => y.orElse (fun _ => z)) := by
  cases x <;> rfl

/-- On a strictly sorted series, the observation exactly at d, falling
back to the most recent one strictly before d, is the most recent
observation at or before d. -/
theorem lookup_orElse_before (s : Series)
    (hs : List.Pairwise (fun p q => p.1 < q.1) s) (d : Int) :
    (lookupDate s d).orElse (fun _ => mostRecentBefore s d)
      = mostRecentAtOrBefore s d := by
  induction s with
  | nil => rfl
  | cons q t ih =>
      have hqt : ∀ p ∈ t, q.1 < p.1 := fun p hp => (List.pairwise_cons.mp hs).1 p hp
      have ht := (List.pairwise_cons.mp hs).2
      rcases lt_trichotomy q.1 d with hlt | heq | hgt
      · unfold lookupDate mostRecentBefore mostRecentAtOrBefore
        rw [List.find?_cons_of_neg _ (by simpa using ne_of_lt hlt),
          List.filter_cons_of_pos (by simpa using hlt),
          List.filter_cons_of_pos (by simpa using le_of_lt hlt)]
        simp only [List.map_cons]
        rw [getLast?_cons_or, getLast?_cons_or, ← orElse_assoc]
        unfold lookupDate mostRecentBefore mostRecentAtOrBefore at ih
        rw [ih ht]
      · unfold lookupDate mostRecentAtOrBefore
        rw [List.find?_cons_of_pos _ (by simpa using heq),
          List.filter_cons_of_pos (by simpa using le_of_eq heq),
          List.filter_eq_nil_iff.mpr (fun p hp => by
            have := hqt p hp
            simp only [decide_eq_true_eq]
            omega)]
        simp
      · unfold lookupDate mostRecentBefore mostRecentAtOrBefore
        rw [List.find?_eq_none.mpr (fun p hp => by
            rcases List.mem_cons.mp hp with rfl | hp2
            · simp only [decide_eq_true_eq]
              omega
            · have := hqt p hp2
              simp only [decide_eq_true_eq]
              omega),
          List.filter_eq_nil_iff.mpr (fun p hp => by
            rcases List.mem_cons.mp hp with rfl | hp2
            · simp only [decide_eq_true_eq]
              omega
            · have := hqt p hp2
              simp only [decide_eq_true_eq]
              omega),
          List.filter_eq_nil_iff.mpr (fun p hp => by
            rcases List.mem_cons.mp hp with rfl | hp2
            · simp only [decide_eq_true_eq]
              omega
            · have := hqt p hp2
              simp only [decide_eq_true_eq]
              omega)]
        rfl

/-- When every observation date is either in d :: L2 or below them all,
the not-yet-processed carry at d :: L2 is the most recent observation
strictly before d. -/
theorem ffillNotIn_cons (s : Series) (d : Int) (L2 : List Int)
    (hsort : List.Sorted (· < ·) (d :: L2))
    (hcov : ∀ p ∈ s, p.1 ∈ (d :: L2) ∨ ∀ e ∈ (d :: L2), p.1 < e) :
    ffillNotIn s (d :: L2) = mostRecentBefore s d := by
  unfold ffillNotIn mostRecentBefore
  congr 2
  apply List.filter_congr
  intro p hp
  simp only [decide_eq_decide]
  constructor
  · intro hnotin
    rcases hcov p hp with hin | hall
    · exact absurd hin hnotin
    · exact hall d (by simp)
  · intro hlt
    simp only [List.mem_cons, not_or]
    refine ⟨by omega, fun hin => ?_⟩
    have := List.rel_of_sorted_cons hsort _ hin
    omega

/-- After processing d, the carry for the remaining axis L2 is the most
recent observation at or before d. -/
theorem mostRecentAtOrBefore_eq_ffillNotIn (s : Series) (d : Int) (L2 : List Int)
    (hsort : List.Sorted (· < ·) (d :: L2))
    (hcov : ∀ p ∈ s, p.1 ∈ (d :: L2) ∨ ∀ e ∈ (d :: L2), p.1 < e) :
    mostRecentAtOrBefore s d = ffillNotIn s L2 := by
  unfold mostRecentAtOrBefore ffillNotIn
  congr 2
  apply List.filter_congr
  intro p hp
  simp only [decide_eq_decide]
  constructor
  · intro hle hin
    have := List.rel_of_sorted_cons hsort _ hin
    omega
  · intro hnotin
    rcases hcov p hp with hin | hall
    · rcases List.mem_cons.mp hin with heq | hin2
      · omega
      · exact absurd hin2 hnotin
    · have := hall d (by simp)
      omega

/-- Invariant of the forward-fill scan: processing a sorted tail L of the
axis from the carry "last observation outside L" produces, at every axis
date, the most recent observation of each series at or before that date. -/
theorem ffillRows_spec (ss : List Series)
    (hs : ∀ s ∈ ss, ((s : Series).map Prod.fst).Sorted (· < ·)) :
    ∀ L : List Int, List.Sorted (· < ·) L →
      (∀ s ∈ ss, ∀ p ∈ (s : Series), p.1 ∈ L ∨ ∀ e ∈ L, p.1 < e) →
      ffillRows (ss.map (fun s => ffillNotIn s L))
          (L.map (fun d => (d, ss.map (fun s => lookupDate s d))))
        = L.map (fun d => (d, ss.map (fun s => mostRecentAtOrBefore s d))) := by
  intro L
  induction L with
  | nil =>
      intro _ _
      rfl
  | cons d L2 ih =>
      intro hsort hcov
      simp only [List.map_cons, ffillRows]
      have hrow : ffillRow (ss.map (fun s => ffillNotIn s (d :: L2)))
          (ss.map (fun s => lookupDate s d))
          = ss.map (fun s => mostRecentAtOrBefore s d) := by
        unfold ffillRow
        rw [zipWith_map_same]
        apply List.map_congr_left
        intro s hsmem
        rw [ffillNotIn_cons s d L2 hsort (hcov s hsmem)]
        exact lookup_orElse_before s (List.pairwise_map.mp (hs s hsmem)) d
      rw [hrow]
      congr 1
      have hnext : ss.map (fun s => mostRecentAtOrBefore s d)
          = ss.map (fun s => ffillNotIn s L2) :=
        List.map_congr_left (fun s hsmem =>
          mostRecentAtOrBefore_eq_ffillNotIn s d L2 hsort (hcov s hsmem))
      rw [hnext]
      apply ih hsort.of_cons
      intro s hsmem p hp
      rcases hcov s hsmem p hp with hin | hall
      · rcases List.mem_cons.mp hin with heq | hin2
        · right
          intro e he
          have := List.rel_of_sorted_cons hsort e he
          omega
        · left
          exact hin2
      · right
        intro e he
        exact hall e (List.mem_cons_of_mem d he)

theorem unionDates_sorted (ss : List Series) :
    List.Sorted (· < ·) (unionDates ss) := by
  unfold unionDates
  have hle : List.Sorted (· ≤ ·)
      ((ss.flatMap (fun s => s.map Prod.fst)).insertionSort (· ≤ ·)) :=
    List.sorted_insertionSort _ _
  exact List.Sorted.lt_of_le (hle.sublist (List.dedup_sublist _))
    (List.nodup_dedup _)

theorem mem_unionDates (ss : List Series) (d : Int) :
    d ∈ unionDates ss ↔ ∃ s ∈ ss, ∃ p ∈ (s : Series), p.1 = d := by
  unfold unionDates
  rw [List.mem_dedup, (List.perm_insertionSort _ _).mem_iff, List.mem_flatMap]
  constructor
  · rintro ⟨s, hsm, hd⟩
    rcases List.mem_map.mp hd with ⟨p, hp, rfl⟩
    exact ⟨s, hsm, p, hp, rfl⟩
  · rintro ⟨s, hsm, p, hp, rfl⟩
    exact ⟨s, hsm, List.mem_map_of_mem _ hp⟩

/-- A unified-axis date is contributed by some series, which has an
observation at it, so its forward-filled row has a non-missing cell. -/
theorem row_has_value (ss : List Series) (d : Int)
    (hd : ∃ s ∈ ss, ∃ p ∈ (s : Series), p.1 = d) :
    (ss.map (fun s => mostRecentAtOrBefore s d)).any Option.isSome = true := by
  rcases hd with ⟨s, hsm, p, hp, hpd⟩
  apply List.any_eq_true.mpr
  refine ⟨mostRecentAtOrBefore s d, List.mem_map_of_mem _ hsm, ?_⟩
  unfold mostRecentAtOrBefore
  refine List.getLast?_isSome.mpr (fun hmapnil => ?_)
  rw [List.map_eq_nil_iff] at hmapnil
  have hpin : p ∈ s.filter (fun q => decide (q.1 ≤ d)) :=
    List.mem_filter.mpr ⟨hp, by simp [hpd]⟩
  rw [hmapnil] at hpin
  exact absurd hpin (List.not_mem_nil p)

/-- C1: for non-empty strictly date-sorted series with no missing
values, the combined table has the sorted union of the input dates as
its axis (no row of the union is dropped), every cell holds the most
recent observation of ITS OWN series at or before the row's date
(missing when that series has no observation yet), and every kept row
has a non-missing cell. -/
theorem c1_get_combined_data_aligned (ss : List Series)
    (h1 : ∀ s ∈ ss, s ≠ ([] : Series))
    (h2 : ∀ s ∈ ss, ((s : Series).map Prod.fst).Sorted (· < ·)) :
    get_combined_data ss
      = (unionDates ss).map
          (fun d => (d, ss.map (fun s => mostRecentAtOrBefore s d)))
    ∧ ((get_combined_data ss).map Prod.fst).Sorted (· < ·)
    ∧ (∀ d : Int, d ∈ (get_combined_data ss).map Prod.fst
        ↔ ∃ s ∈ ss, ∃ p ∈ (s : Series), p.1 = d)
    ∧ (∀ r ∈ get_combined_data ss, r.2.any Option.isSome = true) := by
  have hmain : get_combined_data ss
      = (unionDates ss).map
          (fun d => (d, ss.map (fun s => mostRecentAtOrBefore s d))) := by
    by_cases hss : ss.isEmpty
    · rw [get_combined_data, if_pos hss]
      have hnil : ss = [] := List.isEmpty_iff.mp hss
      subst hnil
      rfl
    · rw [get_combined_data, if_neg hss]
      have hcov : ∀ s ∈ ss, ∀ p ∈ (s : Series),
          p.1 ∈ unionDates ss ∨ ∀ e ∈ unionDates ss, p.1 < e := by
        intro s hsm p hp
        left
        exact (mem_unionDates ss p.1).mpr ⟨s, hsm, p, hp, rfl⟩
      have hzero : ∀ s ∈ ss, ffillNotIn s (unionDates ss) = none := by
        intro s hsm
        unfold ffillNotIn
        rw [List.filter_eq_nil_iff.mpr (fun p hp => by
          simp only [decide_eq_true_eq, not_not]
          exact (mem_unionDates ss p.1).mpr ⟨s, hsm, p, hp, rfl⟩)]
        rfl
      have hinit : (List.replicate ss.length (none : Option ℚ))
          = ss.map (fun s => ffillNotIn s (unionDates ss)) :=
        ((List.map_congr_left hzero).trans (List.map_const' ss none)).symm
      have happly := ffillRows_spec ss h2 (unionDates ss)
        (unionDates_sorted ss) hcov
      rw [concatTable, hinit, happly]
      apply List.filter_eq_self.mpr
      intro r hr
      rcases List.mem_map.mp hr with ⟨d, hd, rfl⟩
      exact row_has_value ss d ((mem_unionDates ss d).mp hd)
  have hid : (Prod.fst ∘ fun d : Int =>
      (d, ss.map fun s => mostRecentAtOrBefore s d)) = id := rfl
  refine ⟨hmain, ?_, ?_, ?_⟩
  · rw [hmain, List.map_map, hid, List.map_id]
    exact unionDates_sorted ss
  · intro d
    rw [hmain, List.map_map, hid, List.map_id]
    exact mem_unionDates ss d
  · intro r hr
    rw [hmain] at hr
    rcases List.mem_map.mp hr with ⟨d, hd, rfl⟩
    exact row_has_value ss d ((mem_unionDates ss d).mp hd)

/-- C1 witness input: a coarse (monthly-style) series and a fine
(daily-style) series with overlapping coverage. -/
def c1ss : List Series := [[(0, 100), (31, 102)], [(0, 5), (1, 6)]]

/-- C1 witness: the alignment statement instantiated at the two concrete
series above. -/
theorem c1_witness :
    get_combined_data c1ss
      = (unionDates c1ss).map
          (fun d => (d, c1ss.map (fun s => mostRecentAtOrBefore s d)))
    ∧ ((get_combined_data c1ss).map Prod.fst).Sorted (· < ·)
    ∧ (∀ d : Int, d ∈ (get_combined_data c1ss).map Prod.fst
        ↔ ∃ s ∈ c1ss, ∃ p ∈ (s : Series), p.1 = d)
    ∧ (∀ r ∈ get_combined_data c1ss, r.2.any Option.isSome = true) :=
  c1_get_combined_data_aligned c1ss (by decide) (by decide)

/-- Rows surviving pd.DataFrame({x, y}).dropna() in
calculate_regression_stats: pairs in which neither member is NaN.
dropna removes only NaN rows; infinite values (which percent-change
inputs can hold, e.g. a change from a zero value, or a re-denominated
cell) survive into the fit. -/
def regPairsF (x y : List FVal) : List (FVal × FVal) :=
  (x.zip y).filter (fun p => decide (p.1 ≠ FVal.nan) && decide (p.2 ≠ FVal.nan))

/-- Embedding of calculate_regression_stats of src/data_loader.py over
float series: drop NaN pairs; with fewer than 2 surviving pairs return
the neutral (0, 0) before any fit; otherwise fit ordinary least squares
of y on x with intercept.  scikit-learn's LinearRegression.fit validates
its input and raises ValueError on non-finite (infinite) values,
modelled by none.  On finite input the centered least-squares problem is
solved by lstsq, whose minimum-norm solution is the slope Sxy/Sxx (and 0
when the centered regressor is identically zero); model.score is
r2_score, which returns 1 - SSres/SStot with the conventions 1.0 when
SStot = SSres = 0 and 0.0 when SStot = 0 but SSres is nonzero. -/
def calculate_regression_stats (x y : List FVal) : Option (ℚ × ℚ) :=
  let ps := regPairsF x y
  if ps.length < 2 then some (0, 0)
  else if ps.any (fun p => !(isFiniteF p.1) || !(isFiniteF p.2)) then none
  else
    let qs := finitePairsQ ps
    let xm := meanQ (qs.map Prod.fst)
    let ym := meanQ (qs.map Prod.snd)
    let beta : ℚ := if regSxx qs = 0 then 0
      else (qs.map (fun q => (q.1 - xm) * (q.2 - ym))).sum / regSxx qs
    let intercept : ℚ := ym - beta * xm
    let ssres : ℚ := (qs.map (fun q => (q.2 - (beta * q.1 + intercept)) ^ 2)).sum
    let sstot : ℚ := (qs.map (fun q => (q.2 - ym) ^ 2)).sum
    let r2 : ℚ := if sstot = 0 then (if ssres = 0 then (1 : ℚ) else 0)
      else 1 - ssres / sstot
    some (beta, r2)

/-- C7: the claim states the function never raises and returns the
ordinary-least-squares slope and R-squared whenever at least 2 valid
pairs remain after dropping missing members.  dropna does not drop
infinite values, and scikit-learn's input validation raises ValueError
on them: on the input below, 3 valid pairs remain, one of them infinite,
and the code raises (modelled none) instead of returning a result, so
the claim as stated is false. -/
theorem c7_counterexample :
    calculate_regression_stats [FVal.num 1, FVal.num 2, FVal.inf true]
        [FVal.num 2, FVal.num 4, FVal.num 6] = none
    ∧ (regPairsF [FVal.num 1, FVal.num 2, FVal.inf true]
        [FVal.num 2, FVal.num 4, FVal.num 6]).length = 3
    ∧ (∀ r : ℚ × ℚ,
        calculate_regression_stats [FVal.num 1, FVal.num 2, FVal.inf true]
          [FVal.num 2, FVal.num 4, FVal.num 6] ≠ some r) := by
  refine ⟨by decide, by decide, ?_⟩
  intro r
  rw [show calculate_regression_stats [FVal.num 1, FVal.num 2, FVal.inf true]
      [FVal.num 2, FVal.num 4, FVal.num 6] = none from by decide]
  exact Option.noConfusion

/-- C7 (amended): with fewer than 2 NaN-free pairs the function returns
the neutral (0, 0) before fitting (even when those pairs hold
infinities) and never raises; with at least 2 NaN-free pairs it raises
ValueError when any surviving pair is non-finite, and on all-finite
pairs it returns the ordinary-least-squares slope and R-squared, so
exactly collinear finite input y = 2x (with the regressor not constant,
where the OLS slope is defined) yields slope 2 and R-squared 1. -/
theorem c7_regression_stats_amended :
    (∀ x y : List FVal, (regPairsF x y).length < 2 →
      calculate_regression_stats x y = some (0, 0))
    ∧ (∀ x y : List FVal, 2 ≤ (regPairsF x y).length →
        (regPairsF x y).any (fun p => !(isFiniteF p.1) || !(isFiniteF p.2)) = true →
        calculate_regression_stats x y = none)
    ∧ (∀ x y : List FVal, 2 ≤ (regPairsF x y).length →
        (regPairsF x y).any (fun p => !(isFiniteF p.1) || !(isFiniteF p.2)) = false →
        (∀ q ∈ finitePairsQ (regPairsF x y), q.2 = 2 * q.1) →
        regSxx (finitePairsQ (regPairsF x y)) ≠ 0 →
        calculate_regression_stats x y = some (2, 1)) := by
  refine ⟨?_, ?_, ?_⟩
  · intro x y h
    simp only [calculate_regression_stats]
    rw [if_pos h]
  · intro x y h2 hinf
    simp only [calculate_regression_stats]
    rw [if_neg (not_lt.mpr h2), if_pos hinf]
  · intro x y h2 hfin hy hsxx
    simp only [calculate_regression_stats]
    rw [if_neg (not_lt.mpr h2), if_neg (by simp [hfin])]
    have hym : meanQ ((finitePairsQ (regPairsF x y)).map Prod.snd)
        = 2 * meanQ ((finitePairsQ (regPairsF x y)).map Prod.fst) := by
      unfold meanQ
      rw [List.map_congr_left (fun q hq => hy q hq),
        show ((finitePairsQ (regPairsF x y)).map fun q => 2 * q.1)
          = ((finitePairsQ (regPairsF x y)).map fun q => 2 * Prod.fst q) from rfl,
        List.sum_map_mul_left, List.length_map, List.length_map, mul_div_assoc]
    rw [hym]
    have hsxy : ((finitePairsQ (regPairsF x y)).map (fun q =>
          (q.1 - meanQ ((finitePairsQ (regPairsF x y)).map Prod.fst))
          * (q.2 - 2 * meanQ ((finitePairsQ (regPairsF x y)).map Prod.fst)))).sum
        = 2 * regSxx (finitePairsQ (regPairsF x y)) := by
      unfold regSxx
      rw [← List.sum_map_mul_left]
      refine congrArg List.sum (List.map_congr_left ?_)
      intro q hq
      rw [hy q hq]
      ring
    rw [hsxy, if_neg hsxx, mul_div_assoc, div_self hsxx, mul_one]
    have hres : ((finitePairsQ (regPairsF x y)).map (fun q =>
          (q.2 - (2 * q.1 + (2 * meanQ ((finitePairsQ (regPairsF x y)).map Prod.fst)
            - 2 * meanQ ((finitePairsQ (regPairsF x y)).map Prod.fst)))) ^ 2)).sum = 0 := by
      refine List.sum_eq_zero ?_
      intro v hv
      rcases List.mem_map.mp hv with ⟨q, hq, rfl⟩
      rw [hy q hq]
      ring
    rw [hres]
    have htot : ((finitePairsQ (regPairsF x y)).map (fun q =>
          (q.2 - 2 * meanQ ((finitePairsQ (regPairsF x y)).map Prod.fst)) ^ 2)).sum
        = 4 * regSxx (finitePairsQ (regPairsF x y)) := by
      unfold regSxx
      rw [← List.sum_map_mul_left]
      refine congrArg List.sum (List.map_congr_left ?_)
      intro q hq
      rw [hy q hq]
      ring
    rw [htot, if_neg (mul_ne_zero (by norm_num) hsxx)]
    rw [zero_div, sub_zero]

/-- C7 witness: the empty input gives the neutral (0, 0); two finite
pairs plus an infinite one make the fit raise; the exactly collinear
finite sample x = (1, 2), y = (2, 4) gives slope 2 and R-squared 1. -/
theorem c7_witness :
    calculate_regression_stats ([] : List FVal) ([] : List FVal) = some (0, 0)
    ∧ calculate_regression_stats [FVal.inf false, FVal.num 2, FVal.num 3]
        [FVal.num 1, FVal.num 2, FVal.num 3] = none
    ∧ calculate_regression_stats [FVal.num 1, FVal.num 2]
        [FVal.num 2, FVal.num 4] = some (2, 1) :=
  ⟨c7_regression_stats_amended.1 [] [] (by decide),
   c7_regression_stats_amended.2.1 [FVal.inf false, FVal.num 2, FVal.num 3]
     [FVal.num 1, FVal.num 2, FVal.num 3] (by decide) (by decide),
   c7_regression_stats_amended.2.2 [FVal.num 1, FVal.num 2]
     [FVal.num 2, FVal.num 4] (by decide) (by decide)
     (by
       norm_num [regPairsF, finitePairsQ, decide_num_eq_nan, List.filterMap_cons])
     (by norm_num [regSxx, regPairsF, finitePairsQ, meanQ, decide_num_eq_nan,
       List.filterMap_cons])⟩
